import Mathlib

/-!
Shallow embedding of `integrador.py`, a country-catalog manager.
The catalog is a list of records (name, population, area, continent)
persisted as a full snapshot on every successful mutation.
Python strings are modelled as Lean `String`/`List Char`; `str.isdigit`
is modelled over ASCII digits; text normalization (`normalizar`) is
modelled with an explicit accent table covering the Latin letters the
program's data uses, and combining marks U+0300–U+036F are dropped,
mirroring the NFD-then-drop-Mn step of the source.
-/

/-- Whitespace characters recognised by Python `str.split` / `str.strip`
(ASCII core). -/
def esEspacio (c : Char) : Bool :=
  c = ' ' || c = '\t' || c = '\n' || c = '\r' || c = '\x0b' || c = '\x0c'

/-- Python `str.lower` on the characters this program manipulates:
ASCII letters plus accented Latin capitals. -/
def pyLower (c : Char) : Char :=
  if 'A' ≤ c ∧ c ≤ 'Z' then Char.ofNat (c.toNat + 32)
  else if c = 'Á' then 'á' else if c = 'É' then 'é' else if c = 'Í' then 'í'
  else if c = 'Ó' then 'ó' else if c = 'Ú' then 'ú' else if c = 'Ü' then 'ü'
  else if c = 'Ñ' then 'ñ' else if c = 'À' then 'à' else if c = 'È' then 'è'
  else if c = 'Ì' then 'ì' else if c = 'Ò' then 'ò' else if c = 'Ù' then 'ù'
  else if c = 'Ä' then 'ä' else if c = 'Ë' then 'ë' else if c = 'Ï' then 'ï'
  else if c = 'Ö' then 'ö' else c

/-- NFD decomposition followed by removal of combining marks (category Mn),
as one character-level map: an accented letter goes to its base letter and
a bare combining mark (U+0300–U+036F) disappears. -/
def quitarAcento (c : Char) : List Char :=
  if 0x300 ≤ c.toNat ∧ c.toNat ≤ 0x36F then []
  else if c = 'á' then ['a'] else if c = 'é' then ['e'] else if c = 'í' then ['i']
  else if c = 'ó' then ['o'] else if c = 'ú' then ['u'] else if c = 'ü' then ['u']
  else if c = 'ñ' then ['n'] else if c = 'à' then ['a'] else if c = 'è' then ['e']
  else if c = 'ì' then ['i'] else if c = 'ò' then ['o'] else if c = 'ù' then ['u']
  else if c = 'ä' then ['a'] else if c = 'ë' then ['e'] else if c = 'ï' then ['i']
  else if c = 'ö' then ['o'] else [c]

/-- `str.split()` with no argument: words separated by whitespace runs,
empty pieces dropped. -/
def palabrasAux : List Char → List Char → List (List Char)
  | [], acc => if acc = [] then [] else [acc.reverse]
  | c :: cs, acc =>
    if esEspacio c then
      if acc = [] then palabrasAux cs [] else acc.reverse :: palabrasAux cs []
    else palabrasAux cs (c :: acc)

/-- `" ".join(texto.strip().lower().split())` followed by accent stripping:
the body of `normalizar`. -/
def normalizar (texto : String) : String :=
  let bajas := texto.toList.map pyLower
  let unido := List.intercalate [' '] (palabrasAux bajas [])
  String.mk (unido.flatMap quitarAcento)

/-- Initial-segment check over char lists: `cabe nd hay` is true when
`nd` is a prefix of `hay`. -/
def cabe : List Char → List Char → Bool
  | [], _ => true
  | _ :: _, [] => false
  | a :: as, b :: bs => a = b && cabe as bs

/-- Python's `nd in hay` substring test over char lists. -/
def haySub (nd : List Char) : List Char → Bool
  | [] => cabe nd []
  | b :: bs => cabe nd (b :: bs) || haySub nd bs

/-- The substring relation as a specification-level proposition:
`hay` decomposes around `nd`. -/
def EsSubcadena (nd hay : List Char) : Prop :=
  ∃ s t, hay = s ++ nd ++ t

/-- A country record, as the dictionaries the program builds:
`{'nombre': …, 'poblacion': …, 'superficie': …, 'continente': …}`. -/
structure Pais where
  nombre : String
  poblacion : Nat
  superficie : Nat
  continente : String
deriving DecidableEq, Repr

/-- Match predicate of `buscar_pais`: the normalized query occurs inside
the normalized record name. -/
def coincide (nombre : String) (p : Pais) : Bool :=
  haySub (normalizar nombre).toList (normalizar p.nombre).toList

/-- `buscar_pais`: list of records whose normalized name contains the
normalized query as a substring, in catalog order. -/
def buscar_pais (paises_catalogo : List Pais) (nombre : String) : List Pais :=
  paises_catalogo.filter (coincide nombre)

/-- Python `str.strip` (ASCII whitespace). -/
def strip (s : String) : String :=
  String.mk (((s.toList.dropWhile esEspacio).reverse.dropWhile esEspacio).reverse)

/-- Python `str.isdigit` over ASCII digit characters: non-empty and all
characters are decimal digits. -/
def esDigito (s : String) : Bool :=
  !s.toList.isEmpty && s.toList.all (fun c => '0' ≤ c && c ≤ '9')

/-- Python `int(s)` on a digit string: base-10 value. -/
def aEntero (s : String) : Nat :=
  s.toList.foldl (fun n c => n * 10 + (c.toNat - '0'.toNat)) 0

/-- One raw CSV data row as `csv.DictReader` hands it to `leer_archivo`:
every field is still a string. -/
structure Fila where
  nombre : String
  poblacion : String
  superficie : String
  continente : String
deriving DecidableEq, Repr

/-- The acceptance test of `leer_archivo`:
`fila['nombre'] and fila['poblacion'].isdigit() and fila['superficie'].isdigit()`. -/
def filaValida (fila : Fila) : Bool :=
  !fila.nombre.toList.isEmpty && esDigito fila.poblacion && esDigito fila.superficie

/-- Conversion of an accepted row into a catalog record, with
`int(...)` applied to population and area. -/
def filaAPais (fila : Fila) : Pais :=
  { nombre := fila.nombre
    poblacion := aEntero fila.poblacion
    superficie := aEntero fila.superficie
    continente := fila.continente }

/-- `leer_archivo`: the reader loop that appends each valid row to the
catalog and silently drops the rest. -/
def leer_archivo (filas : List Fila) : List Pais :=
  filas.foldl
    (fun paises_catalogo fila =>
      if filaValida fila then paises_catalogo ++ [filaAPais fila]
      else paises_catalogo) []

/-- The process state relevant to persistence: the in-memory catalog and
the snapshot currently stored in `paises.csv`. -/
structure Estado where
  catalogo : List Pais
  archivo : List Pais
deriving DecidableEq, Repr

/-- Outcome of `agregar_pais`, one constructor per printed branch;
`ioError` stands for `guardar_archivo` raising after the append. -/
inductive AgRes where
  | ok
  | nombreVacio
  | duplicado
  | datosInvalidos
  | ioError
deriving DecidableEq, Repr

/-- `agregar_pais`: validate the (stripped) name, reject when the
substring search finds anything, validate population/area/continent,
append and persist. `saveOk = false` models the file write raising
IOError, which in the source happens after the in-place append. -/
def agregar_pais (st : Estado) (nombreI pobI supI contI : String)
    (saveOk : Bool) : Estado × AgRes :=
  let nombre := strip nombreI
  if nombre = "" then (st, AgRes.nombreVacio)
  else if buscar_pais st.catalogo nombre ≠ [] then (st, AgRes.duplicado)
  else
    let continente := strip contI
    if esDigito pobI && esDigito supI && !continente.toList.isEmpty then
      let nuevo : Pais :=
        { nombre := nombre, poblacion := aEntero pobI
          superficie := aEntero supI, continente := continente }
      let cat := st.catalogo ++ [nuevo]
      if saveOk then ({ catalogo := cat, archivo := cat }, AgRes.ok)
      else ({ catalogo := cat, archivo := st.archivo }, AgRes.ioError)
    else (st, AgRes.datosInvalidos)

/-- Outcome of `actualizar_pais`; `ok` carries the record that was
resolved as the update target (`encontrados[0]`). -/
inductive UpdRes where
  | ok (objetivo : Pais)
  | noEncontrado
  | datosInvalidos
  | ioError (objetivo : Pais)
deriving DecidableEq, Repr

/-- In-place mutation of the first record matching the search predicate,
as seen from the list: the dictionary object `encontrados[0]` lives
inside the catalog list. -/
def reemplazarPrimero (p : Pais → Bool) (nuevo : Pais) : List Pais → List Pais
  | [] => []
  | x :: xs => if p x then nuevo :: xs else x :: reemplazarPrimero p nuevo xs

/-- `actualizar_pais`: resolve the target as the first search match,
validate the new values, mutate population and area in place, persist.
`saveOk = false` models `guardar_archivo` raising IOError after the
in-place mutation. -/
def actualizar_pais (st : Estado) (nombre pobI supI : String)
    (saveOk : Bool) : Estado × UpdRes :=
  match buscar_pais st.catalogo nombre with
  | [] => (st, UpdRes.noEncontrado)
  | pais :: _ =>
    if esDigito pobI && esDigito supI then
      let nuevo : Pais :=
        { pais with poblacion := aEntero pobI, superficie := aEntero supI }
      let cat := reemplazarPrimero (coincide nombre) nuevo st.catalogo
      if saveOk then ({ catalogo := cat, archivo := cat }, UpdRes.ok pais)
      else ({ catalogo := cat, archivo := st.archivo }, UpdRes.ioError pais)
    else (st, UpdRes.datosInvalidos)

/-- `filtrar_poblacion`: inclusive population range, bounds are the
user-typed integers (Python `int` can be negative). -/
def filtrar_poblacion (paises_catalogo : List Pais) (minimo maximo : Int) :
    List Pais :=
  paises_catalogo.filter
    (fun p => decide (minimo ≤ (p.poblacion : Int) ∧ (p.poblacion : Int) ≤ maximo))

/-- `filtrar_superficie`: inclusive area range. -/
def filtrar_superficie (paises_catalogo : List Pais) (minimo maximo : Int) :
    List Pais :=
  paises_catalogo.filter
    (fun p => decide (minimo ≤ (p.superficie : Int) ∧ (p.superficie : Int) ≤ maximo))

/-- Sort key `clave_poblacion`. -/
def clave_poblacion (pais : Pais) : Nat :=
  pais.poblacion

/-- Sort key `clave_superficie`. -/
def clave_superficie (pais : Pais) : Nat :=
  pais.superficie

/-- Stable insertion of one element: it goes right before the first
element `y` with `le x y`, hence before every element it ties with. -/
def insOrd (le : Pais → Pais → Bool) (x : Pais) : List Pais → List Pais
  | [] => [x]
  | y :: ys => if le x y then x :: y :: ys else y :: insOrd le x ys

/-- Stable insertion sort: the extensional behaviour of Python
`sorted` for a total preorder `le`. -/
def isort (le : Pais → Pais → Bool) : List Pais → List Pais
  | [] => []
  | x :: xs => insOrd le x (isort le xs)

/-- Comparison used by `sorted(..., key=clave_superficie, reverse=not asc)`:
ascending compares keys upward, `reverse=True` flips the comparison while
keeping ties in original order. -/
def leSuperficie (asc : Bool) (a b : Pais) : Bool :=
  if asc then clave_superficie a ≤ clave_superficie b
  else clave_superficie b ≤ clave_superficie a

/-- `ordenar_por_superficie`: stable sort by area, direction chosen by
the caller. -/
def ordenar_por_superficie (paises_catalogo : List Pais) (asc : Bool) :
    List Pais :=
  isort (leSuperficie asc) paises_catalogo

/-- Python `max(..., key=clave_poblacion)`: fold keeping the current
best, replacing it only on a strictly larger key, so the first maximum
wins. -/
def pyMax (b : Pais) (xs : List Pais) : Pais :=
  xs.foldl (fun acc y => if clave_poblacion acc < clave_poblacion y then y else acc) b

/-- Python `min(..., key=clave_poblacion)`: first minimum wins. -/
def pyMin (b : Pais) (xs : List Pais) : Pais :=
  xs.foldl (fun acc y => if clave_poblacion y < clave_poblacion acc then y else acc) b

/-- One step of the continent-count loop:
`continentes[p['continente']] = continentes.get(p['continente'], 0) + 1`.
A present key keeps its position, a new key is appended, matching dict
insertion order. -/
def sumaContinente (d : List (String × Nat)) (c : String) : List (String × Nat) :=
  match d with
  | [] => [(c, 1)]
  | (k, v) :: rest => if k = c then (k, v + 1) :: rest else (k, v) :: sumaContinente rest c

/-- Reading the finished dict: `continentes.get(c, 0)`. -/
def valorDict (d : List (String × Nat)) (c : String) : Nat :=
  match d with
  | [] => 0
  | (k, v) :: rest => if k = c then v else valorDict rest c

/-- The values `estadisticas` prints. -/
structure Stats where
  mayor : Pais
  menor : Pais
  promPob : ℚ
  promSup : ℚ
  continentes : List (String × Nat)
deriving DecidableEq, Repr

/-- `estadisticas`: `none` on the empty catalog (the "Catálogo vacío."
branch), otherwise max/min by population, the two averages, and the
continent-count dict. Averages are exact rationals standing for Python's
true division. -/
def estadisticas (paises_catalogo : List Pais) : Option Stats :=
  match paises_catalogo with
  | [] => none
  | x :: xs =>
    some
      { mayor := pyMax x xs
        menor := pyMin x xs
        promPob := ((((x :: xs).map clave_poblacion).sum : ℚ)) / ((x :: xs).length : ℚ)
        promSup := ((((x :: xs).map clave_superficie).sum : ℚ)) / ((x :: xs).length : ℚ)
        continentes := (x :: xs).foldl (fun d p => sumaContinente d p.continente) [] }

/-- Maximum population value occurring in the catalog
(0 on the empty catalog). -/
def maxPob (l : List Pais) : Nat :=
  (l.map clave_poblacion).foldl Nat.max 0

/-- Running maximum of population keys, seeded with `a`. -/
def maxN (a : Nat) (xs : List Pais) : Nat :=
  xs.foldl (fun m y => Nat.max m (clave_poblacion y)) a

/-- Running minimum of population keys, seeded with `a`. -/
def minN (a : Nat) (xs : List Pais) : Nat :=
  xs.foldl (fun m y => Nat.min m (clave_poblacion y)) a

/-- Minimum population value occurring in the catalog
(0 on the empty catalog). -/
def minPob : List Pais → Nat
  | [] => 0
  | x :: xs => minN (clave_poblacion x) xs

/-- The spec invariant that no two records have names normalizing to the
same canonical form. -/
def NombresDistintos (l : List Pais) : Prop :=
  List.Pairwise (fun a b => normalizar a.nombre ≠ normalizar b.nombre) l

-- Sanity checks on the normalizer (kept as compiled examples).
example : normalizar "Perú" = "peru" := by decide
example : normalizar "  AMÉRICA   del Sur " = "america del sur" := by decide
example : normalizar "" = "" := by decide
example : haySub (normalizar "india").toList (normalizar "Indiana").toList = true := by decide
example : haySub (normalizar "Chi").toList (normalizar "Chile").toList = true := by decide
example : normalizar "Chi" ≠ normalizar "Chile" := by decide

/-- An initial-segment test succeeds exactly when the haystack extends
the needle. -/
theorem cabe_iff (nd : List Char) : ∀ hay, cabe nd hay = true ↔ ∃ t, hay = nd ++ t := by
  induction nd with
  | nil =>
    intro hay
    simp [cabe]
  | cons a as ih =>
    intro hay
    cases hay with
    | nil => simp [cabe]
    | cons b bs =>
      simp only [cabe, Bool.and_eq_true, decide_eq_true_eq, ih, List.cons_append]
      constructor
      · rintro ⟨rfl, t, rfl⟩
        exact ⟨t, rfl⟩
      · rintro ⟨t, h⟩
        injection h with h1 h2
        exact ⟨h1.symm, t, h2⟩

/-- The substring test agrees with the decomposition proposition. -/
theorem haySub_iff (nd : List Char) : ∀ hay, haySub nd hay = true ↔ EsSubcadena nd hay := by
  intro hay
  induction hay with
  | nil =>
    show cabe nd [] = true ↔ _
    rw [cabe_iff]
    unfold EsSubcadena
    constructor
    · rintro ⟨t, h⟩
      exact ⟨[], t, by simpa using h⟩
    · rintro ⟨s, t, h⟩
      rw [List.nil_eq, List.append_assoc, List.append_eq_nil] at h
      exact ⟨t, by simp [h.1, h.2]⟩
  | cons b bs ih =>
    show (cabe nd (b :: bs) || haySub nd bs) = true ↔ _
    rw [Bool.or_eq_true, cabe_iff, ih]
    unfold EsSubcadena
    constructor
    · rintro (⟨t, h⟩ | ⟨s, t, h⟩)
      · exact ⟨[], t, by simpa using h⟩
      · exact ⟨b :: s, t, by simp [h]⟩
    · rintro ⟨s, t, h⟩
      cases s with
      | nil => exact Or.inl ⟨t, by simpa using h⟩
      | cons c cs =>
        injection h with h1 h2
        exact Or.inr ⟨cs, t, h2⟩

/-- Reflexivity of the initial-segment test. -/
theorem cabe_refl : ∀ l : List Char, cabe l l = true := by
  intro l
  induction l with
  | nil => rfl
  | cons a as ih => simp [cabe, ih]

/-- Every string is a substring of itself. -/
theorem haySub_refl : ∀ l : List Char, haySub l l = true := by
  intro l
  cases l with
  | nil => rfl
  | cons b bs => simp [haySub, cabe_refl]

/-- The match predicate of `buscar_pais`, read as a proposition. -/
theorem coincide_iff (q : String) (p : Pais) :
    coincide q p = true ↔
      EsSubcadena (normalizar q).toList (normalizar p.nombre).toList :=
  haySub_iff _ _

/-- The empty needle is a substring of everything. -/
theorem haySub_nil (hay : List Char) : haySub [] hay = true := by
  cases hay with
  | nil => rfl
  | cons b bs => simp [haySub, cabe]

/-- C8: `buscar_pais` returns exactly the records whose normalized name
contains the normalized query as a substring, as a sublist of the catalog
(hence in catalog order), and the empty query returns the whole catalog. -/
theorem buscar_subcadena_normalizada : ∀ (l : List Pais) (q : String),
    (buscar_pais l q).Sublist l ∧
    (∀ p, p ∈ buscar_pais l q ↔
      p ∈ l ∧ EsSubcadena (normalizar q).toList (normalizar p.nombre).toList) ∧
    buscar_pais l "" = l := by
  intro l q
  refine ⟨List.filter_sublist l, fun p => ?_, ?_⟩
  · rw [buscar_pais, List.mem_filter, coincide_iff]
  · rw [buscar_pais, List.filter_eq_self]
    intro p _
    show haySub (normalizar "").toList (normalizar p.nombre).toList = true
    exact haySub_nil _

/-- C9: both range filters keep exactly the records inside the inclusive
bounds, and an inverted range yields the empty list rather than an error. -/
theorem filtrar_rangos_inclusivos : ∀ (l : List Pais) (minimo maximo : Int),
    (∀ p, p ∈ filtrar_poblacion l minimo maximo ↔
      p ∈ l ∧ minimo ≤ (p.poblacion : Int) ∧ (p.poblacion : Int) ≤ maximo) ∧
    (∀ p, p ∈ filtrar_superficie l minimo maximo ↔
      p ∈ l ∧ minimo ≤ (p.superficie : Int) ∧ (p.superficie : Int) ≤ maximo) ∧
    (maximo < minimo →
      filtrar_poblacion l minimo maximo = [] ∧
      filtrar_superficie l minimo maximo = []) := by
  intro l minimo maximo
  refine ⟨fun p => ?_, fun p => ?_, fun hinv => ⟨?_, ?_⟩⟩
  · rw [filtrar_poblacion, List.mem_filter, decide_eq_true_eq]
  · rw [filtrar_superficie, List.mem_filter, decide_eq_true_eq]
  · rw [filtrar_poblacion, List.filter_eq_nil_iff]
    intro p _
    simp only [decide_eq_true_eq, not_and]
    intro h1 h2
    omega
  · rw [filtrar_superficie, List.filter_eq_nil_iff]
    intro p _
    simp only [decide_eq_true_eq, not_and]
    intro h1 h2
    omega

/-- C9 witness: the inverted range (min 100, max 50) on a concrete
catalog returns the empty list for both filters. -/
theorem filtrar_rangos_inclusivos_witness :
    filtrar_poblacion [⟨"A", 1, 10, "x"⟩, ⟨"B", 2, 30, "y"⟩] 100 50 = [] ∧
    filtrar_superficie [⟨"A", 1, 10, "x"⟩, ⟨"B", 2, 30, "y"⟩] 100 50 = [] :=
  (filtrar_rangos_inclusivos [⟨"A", 1, 10, "x"⟩, ⟨"B", 2, 30, "y"⟩] 100 50).2.2
    (by decide)

/-- Inserting an element permutes consing it on. -/
theorem insOrd_perm (le : Pais → Pais → Bool) (x : Pais) :
    ∀ l, List.Perm (insOrd le x l) (x :: l) := by
  intro l
  induction l with
  | nil => rfl
  | cons y ys ih =>
    rw [insOrd]
    split
    · rfl
    · exact (List.Perm.cons y ih).trans (List.Perm.swap x y ys)

/-- Insertion sort permutes its input. -/
theorem isort_perm (le : Pais → Pais → Bool) :
    ∀ l, List.Perm (isort le l) l := by
  intro l
  induction l with
  | nil => rfl
  | cons x xs ih =>
    rw [isort]
    exact (insOrd_perm le x (isort le xs)).trans (List.Perm.cons x ih)

/-- Membership after insertion. -/
theorem mem_insOrd (le : Pais → Pais → Bool) (x a : Pais) (l : List Pais) :
    a ∈ insOrd le x l ↔ a = x ∨ a ∈ l := by
  rw [(insOrd_perm le x l).mem_iff, List.mem_cons]

/-- Inserting into a sorted list keeps it sorted, for a total comparison. -/
theorem insOrd_pairwise (le : Pais → Pais → Bool)
    (htot : ∀ a b, le a b = false → le b a = true)
    (htrans : ∀ a b c, le a b = true → le b c = true → le a c = true)
    (x : Pais) :
    ∀ l, List.Pairwise (fun a b => le a b = true) l →
      List.Pairwise (fun a b => le a b = true) (insOrd le x l) := by
  intro l
  induction l with
  | nil =>
    intro _
    simp [insOrd]
  | cons y ys ih =>
    intro hp
    rw [List.pairwise_cons] at hp
    rw [insOrd]
    split
    · rename_i hxy
      rw [List.pairwise_cons]
      refine ⟨?_, List.pairwise_cons.2 hp⟩
      intro z hz
      rcases List.mem_cons.1 hz with rfl | hzys
      · exact hxy
      · exact htrans x y z hxy (hp.1 z hzys)
    · rename_i hxy
      rw [List.pairwise_cons]
      refine ⟨?_, ih hp.2⟩
      intro z hz
      rcases (mem_insOrd le x z ys).1 hz with hzx | hzys
      · rw [hzx]
        exact htot x y (by simpa using hxy)
      · exact hp.1 z hzys

/-- Insertion sort sorts, for a total transitive comparison. -/
theorem isort_pairwise (le : Pais → Pais → Bool)
    (htot : ∀ a b, le a b = false → le b a = true)
    (htrans : ∀ a b c, le a b = true → le b c = true → le a c = true) :
    ∀ l, List.Pairwise (fun a b => le a b = true) (isort le l) := by
  intro l
  induction l with
  | nil => exact List.Pairwise.nil
  | cons x xs ih => exact insOrd_pairwise le htot htrans x (isort le xs) ih

/-- Stability, positive case: an element satisfying `p` that ties (via
`le`) with every other element satisfying `p` is inserted in front of all
of them. -/
theorem filter_insOrd_pos (le : Pais → Pais → Bool) (p : Pais → Bool)
    (x : Pais) (hx : p x = true)
    (hcomp : ∀ y, p y = true → le x y = true) :
    ∀ l, (insOrd le x l).filter p = x :: l.filter p := by
  intro l
  induction l with
  | nil => simp [insOrd, hx]
  | cons y ys ih =>
    rw [insOrd]
    split
    · simp [List.filter_cons, hx]
    · rename_i hxy
      cases hpy : p y with
      | true => exact absurd (hcomp y hpy) (by simpa using hxy)
      | false => simp [List.filter_cons, hpy, ih]

/-- Stability, negative case: inserting an element not satisfying `p`
does not change the `p`-filtered list. -/
theorem filter_insOrd_neg (le : Pais → Pais → Bool) (p : Pais → Bool)
    (x : Pais) (hx : p x = false) :
    ∀ l, (insOrd le x l).filter p = l.filter p := by
  intro l
  induction l with
  | nil => simp [insOrd, hx]
  | cons y ys ih =>
    rw [insOrd]
    split
    · simp [List.filter_cons, hx]
    · cases hpy : p y with
      | true => simp [List.filter_cons, hpy, ih]
      | false => simp [List.filter_cons, hpy, ih]

/-- Stability of insertion sort: restricted to any class of mutually
tying elements, the sort is the identity. -/
theorem filter_isort (le : Pais → Pais → Bool) (p : Pais → Bool)
    (hcl : ∀ a b, p a = true → p b = true → le a b = true) :
    ∀ l, (isort le l).filter p = l.filter p := by
  intro l
  induction l with
  | nil => rfl
  | cons x xs ih =>
    rw [isort]
    cases hx : p x with
    | true =>
      rw [filter_insOrd_pos le p x hx (fun y hy => hcl x y hx hy), ih,
        List.filter_cons_of_pos hx]
    | false =>
      rw [filter_insOrd_neg le p x hx, ih, List.filter_cons_of_neg (by simp [hx])]

/-- The area comparison is total in both directions. -/
theorem leSuperficie_total (asc : Bool) (a b : Pais) :
    leSuperficie asc a b = false → leSuperficie asc b a = true := by
  unfold leSuperficie
  cases asc <;> simp <;> omega

/-- The area comparison is transitive in both directions. -/
theorem leSuperficie_trans (asc : Bool) (a b c : Pais) :
    leSuperficie asc a b = true → leSuperficie asc b c = true →
      leSuperficie asc a c = true := by
  unfold leSuperficie
  cases asc <;> simp <;> omega

/-- C6: `ordenar_por_superficie` permutes the catalog, is sorted by area
in the caller-chosen direction, is stable (ties keep their original
relative catalog order, in both modes), and on
`[{A,area 10}, {B,area 30}, {C,area 10}]` the descending result is
`[B, A, C]`. -/
theorem ordenar_superficie_estable : ∀ (l : List Pais) (asc : Bool),
    List.Perm (ordenar_por_superficie l asc) l ∧
    List.Pairwise (fun a b => leSuperficie asc a b = true)
      (ordenar_por_superficie l asc) ∧
    (∀ v, (ordenar_por_superficie l asc).filter (fun p => p.superficie = v) =
      l.filter (fun p => p.superficie = v)) ∧
    ordenar_por_superficie
        [⟨"A", 1, 10, "x"⟩, ⟨"B", 2, 30, "y"⟩, ⟨"C", 3, 10, "z"⟩] false =
      [⟨"B", 2, 30, "y"⟩, ⟨"A", 1, 10, "x"⟩, ⟨"C", 3, 10, "z"⟩] := by
  intro l asc
  refine ⟨isort_perm _ l,
    isort_pairwise _ (leSuperficie_total asc) (leSuperficie_trans asc) l,
    fun v => ?_, by decide⟩
  refine filter_isort _ _ (fun a b ha hb => ?_) l
  rw [decide_eq_true_eq] at ha hb
  unfold leSuperficie clave_superficie
  cases asc <;> simp [ha, hb]

/-- The first element kept by a filter is the first element found. -/
theorem head_filter (p : Pais → Bool) :
    ∀ l : List Pais, (l.filter p).head? = l.find? p := by
  intro l
  induction l with
  | nil => rfl
  | cons x xs ih =>
    cases h : p x with
    | true => simp [List.filter_cons, List.find?_cons, h]
    | false => simp [List.filter_cons, List.find?_cons, h, ih]

/-- C5: `actualizar_pais` reports not-found exactly when no record's
normalized name contains the normalized query, otherwise (given valid new
values) it resolves its target to the first matching record in catalog
order; on a catalog with "India" then "Indiana", the query "india"
resolves to "India", the record inserted first. -/
theorem actualizar_primero_coincidente : ∀ (st : Estado) (q pobI supI : String)
    (saveOk : Bool),
    ((actualizar_pais st q pobI supI saveOk).2 = UpdRes.noEncontrado ↔
      st.catalogo.find? (coincide q) = none) ∧
    (∀ p, st.catalogo.find? (coincide q) = some p →
      esDigito pobI = true → esDigito supI = true →
      (actualizar_pais st q pobI supI true).2 = UpdRes.ok p) ∧
    (actualizar_pais
        ⟨[⟨"India", 14, 32, "Asia"⟩, ⟨"Indiana", 68, 94, "América"⟩],
         [⟨"India", 14, 32, "Asia"⟩, ⟨"Indiana", 68, 94, "América"⟩]⟩
        "india" "15" "33" true).2 = UpdRes.ok ⟨"India", 14, 32, "Asia"⟩ := by
  intro st q pobI supI saveOk
  have hf : (st.catalogo.filter (coincide q)).head? = st.catalogo.find? (coincide q) :=
    head_filter _ _
  refine ⟨?_, ?_, by decide⟩
  · cases hb : buscar_pais st.catalogo q with
    | nil =>
      rw [buscar_pais] at hb
      rw [hb] at hf
      simp [actualizar_pais, buscar_pais, hb, ← hf]
    | cons pais rest =>
      rw [buscar_pais] at hb
      rw [hb] at hf
      constructor
      · intro h
        exfalso
        revert h
        simp only [actualizar_pais, buscar_pais, hb]
        split
        · split <;> simp
        · simp
      · intro h
        rw [h] at hf
        simp at hf
  · intro p hp hd1 hd2
    cases hb : buscar_pais st.catalogo q with
    | nil =>
      rw [buscar_pais] at hb
      rw [hb] at hf
      rw [hp] at hf
      simp at hf
    | cons pais rest =>
      rw [buscar_pais] at hb
      rw [hb, hp] at hf
      simp only [List.head?] at hf
      injection hf with hf
      simp [actualizar_pais, buscar_pais, hb, hd1, hd2, hf]

/-- C5 witness: the general rule applied to the India/Indiana catalog:
the target resolves to the first-inserted matching record. -/
theorem actualizar_primero_coincidente_witness :
    (actualizar_pais
        ⟨[⟨"India", 14, 32, "Asia"⟩, ⟨"Indiana", 68, 94, "América"⟩],
         [⟨"India", 14, 32, "Asia"⟩, ⟨"Indiana", 68, 94, "América"⟩]⟩
        "india" "15" "33" true).2 = UpdRes.ok ⟨"India", 14, 32, "Asia"⟩ :=
  (actualizar_primero_coincidente
      ⟨[⟨"India", 14, 32, "Asia"⟩, ⟨"Indiana", 68, 94, "América"⟩],
       [⟨"India", 14, 32, "Asia"⟩, ⟨"Indiana", 68, 94, "América"⟩]⟩
      "india" "15" "33" true).2.1 ⟨"India", 14, 32, "Asia"⟩
    (by decide) (by decide) (by decide)

/-- The seed never exceeds the running maximum. -/
theorem le_maxN : ∀ (xs : List Pais) (a : Nat), a ≤ maxN a xs := by
  intro xs
  induction xs with
  | nil => intro a; exact Nat.le_refl a
  | cons y ys ih =>
    intro a
    calc a ≤ Nat.max a (clave_poblacion y) := Nat.le_max_left _ _
    _ ≤ maxN (Nat.max a (clave_poblacion y)) ys := ih _
    _ = maxN a (y :: ys) := by simp [maxN]

/-- Every member's key is below the running maximum. -/
theorem mem_le_maxN : ∀ (xs : List Pais) (a : Nat) (q : Pais), q ∈ xs →
    clave_poblacion q ≤ maxN a xs := by
  intro xs
  induction xs with
  | nil => intro a q hq; cases hq
  | cons y ys ih =>
    intro a q hq
    rcases List.mem_cons.1 hq with rfl | hq
    · calc clave_poblacion q ≤ Nat.max a (clave_poblacion q) := Nat.le_max_right _ _
      _ ≤ maxN (Nat.max a (clave_poblacion q)) ys := le_maxN _ _
      _ = maxN a (q :: ys) := by simp [maxN]
    · have := ih (Nat.max a (clave_poblacion y)) q hq
      simpa [maxN] using this

/-- The running minimum never exceeds the seed. -/
theorem minN_le : ∀ (xs : List Pais) (a : Nat), minN a xs ≤ a := by
  intro xs
  induction xs with
  | nil => intro a; exact Nat.le_refl a
  | cons y ys ih =>
    intro a
    calc minN a (y :: ys) = minN (Nat.min a (clave_poblacion y)) ys := by simp [minN]
    _ ≤ Nat.min a (clave_poblacion y) := ih _
    _ ≤ a := Nat.min_le_left _ _

/-- The running minimum is below every member's key. -/
theorem minN_le_mem : ∀ (xs : List Pais) (a : Nat) (q : Pais), q ∈ xs →
    minN a xs ≤ clave_poblacion q := by
  intro xs
  induction xs with
  | nil => intro a q hq; cases hq
  | cons y ys ih =>
    intro a q hq
    rcases List.mem_cons.1 hq with rfl | hq
    · calc minN a (q :: ys) = minN (Nat.min a (clave_poblacion q)) ys := by simp [minN]
      _ ≤ Nat.min a (clave_poblacion q) := minN_le _ _
      _ ≤ clave_poblacion q := Nat.min_le_right _ _
    · have := ih (Nat.min a (clave_poblacion y)) q hq
      simpa [minN] using this

/-- Python `max(..., key=clave_poblacion)` returns the first record in
order whose key equals the maximum key. -/
theorem pyMax_find : ∀ (xs : List Pais) (b : Pais),
    (b :: xs).find?
        (fun p => decide (clave_poblacion p = maxN (clave_poblacion b) xs)) =
      some (pyMax b xs) := by
  intro xs
  induction xs with
  | nil =>
    intro b
    simp [pyMax, maxN, List.find?]
  | cons y ys ih =>
    intro b
    by_cases hlt : clave_poblacion b < clave_poblacion y
    · have hmax : Nat.max (clave_poblacion b) (clave_poblacion y) = clave_poblacion y :=
        Nat.max_eq_right (Nat.le_of_lt hlt)
      have hM : maxN (clave_poblacion b) (y :: ys) = maxN (clave_poblacion y) ys := by
        simp [maxN, hmax]
      have hpy : pyMax b (y :: ys) = pyMax y ys := by simp [pyMax, hlt]
      have hbM : clave_poblacion b ≠ maxN (clave_poblacion y) ys := by
        have := le_maxN ys (clave_poblacion y)
        omega
      rw [hM, hpy, List.find?_cons_of_neg _ (by simp [hbM])]
      exact ih y
    · have hmax : Nat.max (clave_poblacion b) (clave_poblacion y) = clave_poblacion b :=
        Nat.max_eq_left (Nat.le_of_not_lt hlt)
      have hM : maxN (clave_poblacion b) (y :: ys) = maxN (clave_poblacion b) ys := by
        simp [maxN, hmax]
      have hpy : pyMax b (y :: ys) = pyMax b ys := by simp [pyMax, hlt]
      rw [hM, hpy]
      have ihb := ih b
      by_cases hbM : clave_poblacion b = maxN (clave_poblacion b) ys
      · rw [List.find?_cons_of_pos _ (by simpa using hbM)]
        rw [List.find?_cons_of_pos _ (by simpa using hbM)] at ihb
        exact ihb
      · have hyM : clave_poblacion y ≠ maxN (clave_poblacion b) ys := by
          have h1 := le_maxN ys (clave_poblacion b)
          have h2 := Nat.le_of_not_lt hlt
          omega
        rw [List.find?_cons_of_neg _ (by simp [hbM]),
          List.find?_cons_of_neg _ (by simp [hyM])]
        rw [List.find?_cons_of_neg _ (by simp [hbM])] at ihb
        exact ihb

/-- Python `min(..., key=clave_poblacion)` returns the first record in
order whose key equals the minimum key. -/
theorem pyMin_find : ∀ (xs : List Pais) (b : Pais),
    (b :: xs).find?
        (fun p => decide (clave_poblacion p = minN (clave_poblacion b) xs)) =
      some (pyMin b xs) := by
  intro xs
  induction xs with
  | nil =>
    intro b
    simp [pyMin, minN, List.find?]
  | cons y ys ih =>
    intro b
    by_cases hlt : clave_poblacion y < clave_poblacion b
    · have hmin : Nat.min (clave_poblacion b) (clave_poblacion y) = clave_poblacion y :=
        Nat.min_eq_right (Nat.le_of_lt hlt)
      have hM : minN (clave_poblacion b) (y :: ys) = minN (clave_poblacion y) ys := by
        simp [minN, hmin]
      have hpy : pyMin b (y :: ys) = pyMin y ys := by simp [pyMin, hlt]
      have hbM : clave_poblacion b ≠ minN (clave_poblacion y) ys := by
        have := minN_le ys (clave_poblacion y)
        omega
      rw [hM, hpy, List.find?_cons_of_neg _ (by simp [hbM])]
      exact ih y
    · have hmin : Nat.min (clave_poblacion b) (clave_poblacion y) = clave_poblacion b :=
        Nat.min_eq_left (Nat.le_of_not_lt hlt)
      have hM : minN (clave_poblacion b) (y :: ys) = minN (clave_poblacion b) ys := by
        simp [minN, hmin]
      have hpy : pyMin b (y :: ys) = pyMin b ys := by simp [pyMin, hlt]
      rw [hM, hpy]
      have ihb := ih b
      by_cases hbM : clave_poblacion b = minN (clave_poblacion b) ys
      · rw [List.find?_cons_of_pos _ (by simpa using hbM)]
        rw [List.find?_cons_of_pos _ (by simpa using hbM)] at ihb
        exact ihb
      · have hyM : clave_poblacion y ≠ minN (clave_poblacion b) ys := by
          have h1 := minN_le ys (clave_poblacion b)
          have h2 := Nat.le_of_not_lt hlt
          omega
        rw [List.find?_cons_of_neg _ (by simp [hbM]),
          List.find?_cons_of_neg _ (by simp [hyM])]
        rw [List.find?_cons_of_neg _ (by simp [hbM])] at ihb
        exact ihb

/-- The overall maximum population is the running maximum seeded with the
head's key. -/
theorem maxPob_cons (x : Pais) (xs : List Pais) :
    maxPob (x :: xs) = maxN (clave_poblacion x) xs := by
  simp [maxPob, maxN, List.foldl_map, Nat.zero_max]

/-- Reading the dict after one increment. -/
theorem valorDict_suma (cNuevo c : String) : ∀ d,
    valorDict (sumaContinente d cNuevo) c =
      valorDict d c + (if cNuevo = c then 1 else 0) := by
  intro d
  induction d with
  | nil =>
    simp only [sumaContinente, valorDict]
    split <;> simp
  | cons kv rest ih =>
    obtain ⟨k, v⟩ := kv
    by_cases hk : k = cNuevo
    · subst hk
      simp only [sumaContinente, if_pos rfl, valorDict]
      split_ifs <;> omega
    · simp only [sumaContinente, if_neg hk, valorDict]
      rw [ih]
      split_ifs with h1 h2
      · exact absurd (h1.trans h2.symm) hk
      · omega
      · omega
      · omega

/-- The continent-count loop computes, for every key, the number of
records with exactly that continent string. -/
theorem foldl_suma (c : String) : ∀ (l : List Pais) (d : List (String × Nat)),
    valorDict (l.foldl (fun d p => sumaContinente d p.continente) d) c =
      valorDict d c + l.countP (fun p => decide (p.continente = c)) := by
  intro l
  induction l with
  | nil => intro d; simp
  | cons p ps ih =>
    intro d
    rw [List.foldl_cons, ih, valorDict_suma, List.countP_cons]
    simp only [decide_eq_true_eq]
    split_ifs <;> omega

/-- C7: `estadisticas` fails exactly on the empty catalog; otherwise it
returns the first record in catalog order attaining the maximum
population, the first attaining the minimum, the exact arithmetic means
of population and area, and a map sending each raw continent string to
the number of records carrying exactly that string; on the populations
10, 20, 30 the mean population is 20. -/
theorem estadisticas_correctas : ∀ (l : List Pais),
    (estadisticas l = none ↔ l = []) ∧
    (∀ s, estadisticas l = some s →
      l.find? (fun p => decide (clave_poblacion p = maxPob l)) = some s.mayor ∧
      l.find? (fun p => decide (clave_poblacion p = minPob l)) = some s.menor ∧
      (∀ q ∈ l, q.poblacion ≤ s.mayor.poblacion ∧ s.menor.poblacion ≤ q.poblacion) ∧
      (l.length : ℚ) * s.promPob = ((l.map clave_poblacion).sum : ℚ) ∧
      (l.length : ℚ) * s.promSup = ((l.map clave_superficie).sum : ℚ) ∧
      (∀ c, valorDict s.continentes c = l.countP (fun p => decide (p.continente = c)))) ∧
    (∃ s, estadisticas
        [⟨"a", 10, 1, "x"⟩, ⟨"b", 20, 2, "y"⟩, ⟨"c", 30, 3, "z"⟩] = some s ∧
      s.promPob = 20) := by
  intro l
  refine ⟨by cases l <;> simp [estadisticas], ?_, ?_⟩
  · intro s hs
    cases l with
    | nil => simp [estadisticas] at hs
    | cons x xs =>
      rw [estadisticas] at hs
      injection hs with hs
      subst hs
      have hlen : (((x :: xs).length : Nat) : ℚ) ≠ 0 :=
        Nat.cast_ne_zero.mpr (by simp)
      refine ⟨?_, ?_, ?_, ?_, ?_, ?_⟩
      · rw [maxPob_cons]
        exact pyMax_find xs x
      · show (x :: xs).find?
            (fun p => decide (clave_poblacion p = minN (clave_poblacion x) xs)) = _
        exact pyMin_find xs x
      · intro q hq
        have hmayor := List.find?_some (maxPob_cons x xs ▸ pyMax_find xs x)
        have hmenor := List.find?_some (pyMin_find xs x)
        rw [decide_eq_true_eq] at hmayor hmenor
        constructor
        · show clave_poblacion q ≤ clave_poblacion (pyMax x xs)
          rw [hmayor, maxPob_cons]
          rcases List.mem_cons.1 hq with rfl | hq
          · exact le_maxN xs _
          · exact mem_le_maxN xs _ q hq
        · show clave_poblacion (pyMin x xs) ≤ clave_poblacion q
          rw [hmenor]
          rcases List.mem_cons.1 hq with rfl | hq
          · exact minN_le xs _
          · exact minN_le_mem xs _ q hq
      · show ((x :: xs).length : ℚ) *
            ((((x :: xs).map clave_poblacion).sum : ℚ) / ((x :: xs).length : ℚ)) = _
        rw [mul_div_cancel₀ _ hlen]
      · show ((x :: xs).length : ℚ) *
            ((((x :: xs).map clave_superficie).sum : ℚ) / ((x :: xs).length : ℚ)) = _
        rw [mul_div_cancel₀ _ hlen]
      · intro c
        show valorDict
            ((x :: xs).foldl (fun d p => sumaContinente d p.continente) []) c = _
        rw [foldl_suma]
        simp [valorDict]
  · refine ⟨_, rfl, ?_⟩
    show ((((([⟨"a", 10, 1, "x"⟩, ⟨"b", 20, 2, "y"⟩, ⟨"c", 30, 3, "z"⟩] : List Pais)).map
        clave_poblacion).sum : ℚ)) / _ = 20
    norm_num [clave_poblacion]

/-- C7 witness: on the concrete three-record catalog the first record
attaining the maximum population is the one named "c". -/
theorem estadisticas_correctas_witness :
    ([⟨"a", 10, 1, "x"⟩, ⟨"b", 20, 2, "y"⟩, ⟨"c", 30, 3, "z"⟩] : List Pais).find?
        (fun p => decide (clave_poblacion p =
          maxPob [⟨"a", 10, 1, "x"⟩, ⟨"b", 20, 2, "y"⟩, ⟨"c", 30, 3, "z"⟩])) =
      some (⟨"c", 30, 3, "z"⟩ : Pais) :=
  ((estadisticas_correctas
      [⟨"a", 10, 1, "x"⟩, ⟨"b", 20, 2, "y"⟩, ⟨"c", 30, 3, "z"⟩]).2.1
    _ rfl).1

/-- Branch analysis of `agregar_pais`: the duplicate outcome occurs
exactly when the stripped name is non-empty and some existing record's
normalized name contains the normalized new name as a substring. -/
theorem agregar_dup_aux : ∀ (st : Estado) (n pobI supI contI : String)
    (saveOk : Bool),
    (agregar_pais st n pobI supI contI saveOk).2 = AgRes.duplicado ↔
      (strip n ≠ "" ∧ ∃ p ∈ st.catalogo,
        EsSubcadena (normalizar (strip n)).toList (normalizar p.nombre).toList) := by
  intro st n pobI supI contI saveOk
  by_cases h1 : strip n = ""
  · simp [agregar_pais, h1]
  · by_cases h2 : buscar_pais st.catalogo (strip n) = []
    · constructor
      · intro h
        simp only [agregar_pais, if_neg h1, if_neg (not_not_intro h2)] at h
        revert h
        split
        · split <;> simp
        · simp
      · rintro ⟨-, p, hp, hsub⟩
        rw [buscar_pais, List.filter_eq_nil_iff] at h2
        exact (h2 p hp ((coincide_iff _ _).mpr hsub)).elim
    · constructor
      · intro _
        refine ⟨h1, ?_⟩
        obtain ⟨p, hp⟩ := List.exists_mem_of_ne_nil _ h2
        rw [buscar_pais, List.mem_filter] at hp
        exact ⟨p, hp.1, (coincide_iff _ _).1 hp.2⟩
      · intro _
        simp [agregar_pais, if_neg h1, h2]

/-- C1 counterexample: adding "Chi" to a catalog holding only "Chile" is
rejected as a duplicate, although the normalization of "Chi" equals no
existing record's canonical form — so the claimed equality-based iff
fails. -/
theorem agregar_duplicado_sin_igualdad :
    (agregar_pais
        ⟨[⟨"Chile", 19, 756, "América"⟩], [⟨"Chile", 19, 756, "América"⟩]⟩
        "Chi" "1" "1" "América" true).2 = AgRes.duplicado ∧
    normalizar (⟨"Chile", 19, 756, "América"⟩ : Pais).nombre ≠ normalizar "Chi" := by
  decide

/-- C1 (amended): `agregar_pais` fails as a duplicate iff the stripped
new name is non-empty and its normalization occurs as a substring (not
necessarily equal) of some existing record's normalized name; in
particular a name differing from an existing one only in case or accents
("peru" versus existing "Perú") is still rejected. -/
theorem agregar_duplicado_subcadena_iff : ∀ (st : Estado)
    (n pobI supI contI : String) (saveOk : Bool),
    ((agregar_pais st n pobI supI contI saveOk).2 = AgRes.duplicado ↔
      (strip n ≠ "" ∧ ∃ p ∈ st.catalogo,
        EsSubcadena (normalizar (strip n)).toList (normalizar p.nombre).toList)) ∧
    (agregar_pais
        ⟨[⟨"Perú", 34, 1285, "América"⟩], [⟨"Perú", 34, 1285, "América"⟩]⟩
        "peru" "34" "1285" "América" true).2 = AgRes.duplicado :=
  fun st n pobI supI contI saveOk =>
    ⟨agregar_dup_aux st n pobI supI contI saveOk, by decide⟩

/-- C10: any add request whose non-empty stripped name normalizes to a
substring of some existing record's normalized name is rejected as a
duplicate; concretely "Chi" is rejected against a catalog holding only
"Chile", whose canonical form differs from that of "Chi". -/
theorem agregar_rechaza_subcadena :
    (∀ (st : Estado) (n pobI supI contI : String) (saveOk : Bool),
      strip n ≠ "" →
      (∃ p ∈ st.catalogo,
        EsSubcadena (normalizar (strip n)).toList (normalizar p.nombre).toList) →
      (agregar_pais st n pobI supI contI saveOk).2 = AgRes.duplicado) ∧
    ((agregar_pais
        ⟨[⟨"Chile", 19, 756, "América"⟩], [⟨"Chile", 19, 756, "América"⟩]⟩
        "Chi" "10" "20" "América" true).2 = AgRes.duplicado ∧
      normalizar (⟨"Chile", 19, 756, "América"⟩ : Pais).nombre ≠
        normalizar (strip "Chi")) :=
  ⟨fun st n pobI supI contI saveOk h1 h2 =>
    (agregar_dup_aux st n pobI supI contI saveOk).mpr ⟨h1, h2⟩, by decide⟩

/-- C10 witness: the substring rule applied to a concrete catalog, with a
name that still carries surrounding whitespace. -/
theorem agregar_rechaza_subcadena_witness :
    (agregar_pais
        ⟨[⟨"Chile", 19, 756, "América"⟩], [⟨"Chile", 19, 756, "América"⟩]⟩
        " Chi " "10" "20" "América" true).2 = AgRes.duplicado :=
  agregar_rechaza_subcadena.1
    ⟨[⟨"Chile", 19, 756, "América"⟩], [⟨"Chile", 19, 756, "América"⟩]⟩
    " Chi " "10" "20" "América" true (by decide)
    ⟨⟨"Chile", 19, 756, "América"⟩, by decide, [], ['l', 'e'], by decide⟩

/-- The reader loop equals a filter-then-convert of the rows. -/
theorem leer_aux : ∀ (filas : List Fila) (acc : List Pais),
    filas.foldl
        (fun paises_catalogo fila =>
          if filaValida fila then paises_catalogo ++ [filaAPais fila]
          else paises_catalogo) acc =
      acc ++ (filas.filter filaValida).map filaAPais := by
  intro filas
  induction filas with
  | nil => intro acc; simp
  | cons f fs ih =>
    intro acc
    rw [List.foldl_cons]
    cases hv : filaValida f with
    | true =>
      rw [if_pos rfl, ih, List.filter_cons_of_pos hv, List.map_cons]
      simp
    | false =>
      rw [if_neg (by simp), ih, List.filter_cons_of_neg (by simp [hv])]

/-- A string with a non-empty character list is not the empty string. -/
theorem cadena_no_vacia {s : String} (h : s.toList.isEmpty = false) : s ≠ "" := by
  intro hc
  rw [hc] at h
  simp [String.toList] at h

/-- C2 counterexample: a stored row with valid name and numbers but an
empty continent is loaded into the catalog, so a catalog record can fail
the claimed non-empty-continent validation. -/
theorem leer_archivo_continente_vacio :
    leer_archivo [⟨"X", "1", "2", ""⟩] = [⟨"X", 1, 2, ""⟩] ∧
    (⟨"X", 1, 2, ""⟩ : Pais).continente = "" := by
  decide

/-- C2 (amended): `leer_archivo` keeps exactly the rows with non-empty
name and digit-string population/area (silently dropping the rest), so
every loaded record has a non-empty name — but its continent is not
checked; records appended by `agregar_pais`, in contrast, also carry a
non-empty continent. -/
theorem leer_y_agregar_validacion :
    (∀ filas, leer_archivo filas = (filas.filter filaValida).map filaAPais) ∧
    (∀ filas p, p ∈ leer_archivo filas → p.nombre ≠ "") ∧
    (∀ (st : Estado) (n pobI supI contI : String) (saveOk : Bool),
      (agregar_pais st n pobI supI contI saveOk).1.catalogo = st.catalogo ∨
      ∃ nuevo, (agregar_pais st n pobI supI contI saveOk).1.catalogo =
          st.catalogo ++ [nuevo] ∧ nuevo.nombre ≠ "" ∧ nuevo.continente ≠ "" ∧
          nuevo.poblacion = aEntero pobI ∧ nuevo.superficie = aEntero supI) := by
  have heq : ∀ filas, leer_archivo filas = (filas.filter filaValida).map filaAPais := by
    intro filas
    rw [leer_archivo, leer_aux, List.nil_append]
  refine ⟨heq, ?_, ?_⟩
  · intro filas p hp
    rw [heq] at hp
    rcases List.mem_map.1 hp with ⟨f, hf, rfl⟩
    have hval := (List.mem_filter.1 hf).2
    rw [filaValida] at hval
    simp only [Bool.and_eq_true, Bool.not_eq_true'] at hval
    exact cadena_no_vacia hval.1.1
  · intro st n pobI supI contI saveOk
    by_cases h1 : strip n = ""
    · left
      simp [agregar_pais, h1]
    · by_cases h2 : buscar_pais st.catalogo (strip n) = []
      · by_cases h3 : (esDigito pobI && esDigito supI
            && !(strip contI).toList.isEmpty) = true
        · right
          refine ⟨(⟨strip n, aEntero pobI, aEntero supI, strip contI⟩ : Pais),
            ?_, h1, ?_, rfl, rfl⟩
          · simp only [agregar_pais, if_neg h1, if_neg (not_not_intro h2),
              if_pos h3]
            cases saveOk <;> rfl
          · simp only [Bool.and_eq_true, Bool.not_eq_true'] at h3
            exact cadena_no_vacia h3.2
        · left
          simp only [agregar_pais, if_neg h1, if_neg (not_not_intro h2),
            if_neg h3]
      · left
        simp [agregar_pais, if_neg h1, h2]

/-- C2 witness: the loaded-records rule applied to a concrete stored
file: the loaded record's name is non-empty. -/
theorem leer_y_agregar_validacion_witness :
    (⟨"X", 1, 2, ""⟩ : Pais).nombre ≠ "" :=
  leer_y_agregar_validacion.2.1 [⟨"X", "1", "2", ""⟩] ⟨"X", 1, 2, ""⟩ (by decide)

/-- C3 counterexample: loading a stored file that holds both "Peru" and
"Perú" yields a catalog with two records whose names normalize to the
same canonical form — the invariant does not hold in every reachable
state. -/
theorem leer_normalizacion_duplicada :
    ¬ NombresDistintos
        (leer_archivo
          [⟨"Peru", "1", "1", "América"⟩, ⟨"Perú", "2", "2", "América"⟩]) := by
  rw [NombresDistintos]
  decide

/-- Replacing the first match of a search by a record with the same name
leaves the list of names unchanged. -/
theorem reemplazar_nombres : ∀ (cat : List Pais) (pr : Pais → Bool)
    (nuevo pais : Pais) (rest : List Pais),
    cat.filter pr = pais :: rest → nuevo.nombre = pais.nombre →
    (reemplazarPrimero pr nuevo cat).map Pais.nombre = cat.map Pais.nombre := by
  intro cat
  induction cat with
  | nil =>
    intro pr nuevo pais rest h _
    simp at h
  | cons x xs ih =>
    intro pr nuevo pais rest h hn
    by_cases hx : pr x = true
    · rw [List.filter_cons_of_pos hx] at h
      injection h with h1 h2
      rw [reemplazarPrimero, if_pos hx, List.map_cons, List.map_cons, hn, h1]
    · rw [List.filter_cons_of_neg (by simp [hx])] at h
      rw [reemplazarPrimero, if_neg hx, List.map_cons, List.map_cons,
        ih pr nuevo pais rest h hn]

/-- C3 (amended): `agregar_pais` and `actualizar_pais` preserve the
invariant that no two records' names normalize to the same canonical
form (add rejects any normalized-substring collision, and update never
changes a name); `leer_archivo`, however, does not establish it. -/
theorem mutaciones_preservan_nombres : ∀ (st : Estado)
    (n pobI supI contI : String) (saveOk : Bool),
    NombresDistintos st.catalogo →
    NombresDistintos (agregar_pais st n pobI supI contI saveOk).1.catalogo ∧
    NombresDistintos (actualizar_pais st n pobI supI saveOk).1.catalogo := by
  intro st n pobI supI contI saveOk hd
  constructor
  · by_cases h1 : strip n = ""
    · simpa [agregar_pais, h1] using hd
    · by_cases h2 : buscar_pais st.catalogo (strip n) = []
      · by_cases h3 : (esDigito pobI && esDigito supI
            && !(strip contI).toList.isEmpty) = true
        · have hnuevo : NombresDistintos (st.catalogo ++
              [(⟨strip n, aEntero pobI, aEntero supI, strip contI⟩ : Pais)]) := by
            rw [NombresDistintos, List.pairwise_append]
            refine ⟨hd, List.pairwise_singleton _ _, ?_⟩
            intro a ha b hb
            rw [List.mem_singleton] at hb
            subst hb
            rw [buscar_pais, List.filter_eq_nil_iff] at h2
            intro heqn
            apply h2 a ha
            rw [coincide]
            show haySub (normalizar (strip n)).toList (normalizar a.nombre).toList = true
            rw [heqn]
            exact haySub_refl _
          simp only [agregar_pais, if_neg h1, if_neg (not_not_intro h2), if_pos h3]
          cases saveOk
          · exact hnuevo
          · exact hnuevo
        · simp only [agregar_pais, if_neg h1, if_neg (not_not_intro h2),
            if_neg h3]
          exact hd
      · simpa [agregar_pais, if_neg h1, h2] using hd
  · cases hb : buscar_pais st.catalogo n with
    | nil => simpa [actualizar_pais, hb] using hd
    | cons pais rest =>
      by_cases hdg : (esDigito pobI && esDigito supI) = true
      · have hmap : (reemplazarPrimero (coincide n)
            { pais with poblacion := aEntero pobI, superficie := aEntero supI }
            st.catalogo).map Pais.nombre = st.catalogo.map Pais.nombre := by
          refine reemplazar_nombres st.catalogo (coincide n) _ pais rest ?_ rfl
          rw [← buscar_pais, hb]
        have hiff : ∀ l : List Pais,
            List.Pairwise (fun a b => normalizar a.nombre ≠ normalizar b.nombre) l ↔
              List.Pairwise (fun a b => normalizar a ≠ normalizar b)
                (l.map Pais.nombre) := by
          intro l
          rw [List.pairwise_map]
        have hres : NombresDistintos (reemplazarPrimero (coincide n)
            { pais with poblacion := aEntero pobI, superficie := aEntero supI }
            st.catalogo) := by
          rw [NombresDistintos]
          rw [hiff, hmap]
          exact (hiff _).1 hd
        simp only [actualizar_pais, hb, if_pos hdg]
        cases saveOk
        · exact hres
        · exact hres
      · simp only [actualizar_pais, hb, if_neg hdg]
        exact hd

/-- C3 witness: preservation applied to a concrete single-record state
whose names are pairwise distinct after normalization. -/
theorem mutaciones_preservan_nombres_witness :
    NombresDistintos (agregar_pais
        ⟨[⟨"India", 14, 32, "Asia"⟩], [⟨"India", 14, 32, "Asia"⟩]⟩
        "Bolivia" "12" "1098" "América" true).1.catalogo ∧
    NombresDistintos (actualizar_pais
        ⟨[⟨"India", 14, 32, "Asia"⟩], [⟨"India", 14, 32, "Asia"⟩]⟩
        "Bolivia" "12" "1098" true).1.catalogo :=
  mutaciones_preservan_nombres
    ⟨[⟨"India", 14, 32, "Asia"⟩], [⟨"India", 14, 32, "Asia"⟩]⟩
    "Bolivia" "12" "1098" "América" true
    (by rw [NombresDistintos]; decide)

/-- C4 counterexample: a valid add whose save raises IOError leaves the
in-memory catalog changed (the record is already appended), so a failing
mutation is not all-or-nothing. -/
theorem agregar_ioerror_cambia_catalogo :
    (agregar_pais
        ⟨[⟨"Chile", 19, 756, "América"⟩], [⟨"Chile", 19, 756, "América"⟩]⟩
        "Bolivia" "12" "1098" "América" false).2 = AgRes.ioError ∧
    (agregar_pais
        ⟨[⟨"Chile", 19, 756, "América"⟩], [⟨"Chile", 19, 756, "América"⟩]⟩
        "Bolivia" "12" "1098" "América" false).1.catalogo ≠
      [⟨"Chile", 19, 756, "América"⟩] := by
  decide

/-- C4 (amended): rejections decided before the mutation (empty name,
duplicate, invalid data, not-found) leave the state untouched, and a
successful mutation leaves the stored file equal to the catalog; but an
IOError raised by save happens after the in-memory mutation: the file
keeps its old contents while the catalog of an add has already grown. -/
theorem mutaciones_atomicas : ∀ (st : Estado) (n pobI supI contI : String)
    (saveOk : Bool),
    ((agregar_pais st n pobI supI contI saveOk).2 = AgRes.nombreVacio ∨
      (agregar_pais st n pobI supI contI saveOk).2 = AgRes.duplicado ∨
      (agregar_pais st n pobI supI contI saveOk).2 = AgRes.datosInvalidos →
      (agregar_pais st n pobI supI contI saveOk).1 = st) ∧
    ((agregar_pais st n pobI supI contI saveOk).2 = AgRes.ok →
      (agregar_pais st n pobI supI contI saveOk).1.archivo =
        (agregar_pais st n pobI supI contI saveOk).1.catalogo) ∧
    ((agregar_pais st n pobI supI contI saveOk).2 = AgRes.ioError →
      (agregar_pais st n pobI supI contI saveOk).1.archivo = st.archivo ∧
      (agregar_pais st n pobI supI contI saveOk).1.catalogo ≠ st.catalogo) ∧
    ((actualizar_pais st n pobI supI saveOk).2 = UpdRes.noEncontrado ∨
      (actualizar_pais st n pobI supI saveOk).2 = UpdRes.datosInvalidos →
      (actualizar_pais st n pobI supI saveOk).1 = st) ∧
    (∀ p, (actualizar_pais st n pobI supI saveOk).2 = UpdRes.ok p →
      (actualizar_pais st n pobI supI saveOk).1.archivo =
        (actualizar_pais st n pobI supI saveOk).1.catalogo) ∧
    (∀ p, (actualizar_pais st n pobI supI saveOk).2 = UpdRes.ioError p →
      (actualizar_pais st n pobI supI saveOk).1.archivo = st.archivo) := by
  intro st n pobI supI contI saveOk
  have hag : ∀ (cat : List Pais) (nuevo : Pais), cat ++ [nuevo] ≠ cat := by
    intro cat nuevo h
    have := congrArg List.length h
    simp at this
  refine ⟨?_, ?_, ?_, ?_, ?_, ?_⟩
  · intro h
    by_cases h1 : strip n = ""
    · simp [agregar_pais, h1]
    · by_cases h2 : buscar_pais st.catalogo (strip n) = []
      · by_cases h3 : (esDigito pobI && esDigito supI
            && !(strip contI).toList.isEmpty) = true
        · exfalso
          revert h
          simp only [agregar_pais, if_neg h1, if_neg (not_not_intro h2),
            if_pos h3]
          cases saveOk <;> simp
        · simp only [agregar_pais, if_neg h1, if_neg (not_not_intro h2),
            if_neg h3]
      · simp [agregar_pais, if_neg h1, h2]
  · intro h
    by_cases h1 : strip n = ""
    · rw [agregar_pais] at h
      simp [h1] at h
    · by_cases h2 : buscar_pais st.catalogo (strip n) = []
      · by_cases h3 : (esDigito pobI && esDigito supI
            && !(strip contI).toList.isEmpty) = true
        · simp only [agregar_pais, if_neg h1, if_neg (not_not_intro h2),
            if_pos h3] at h ⊢
          cases saveOk
          · simp at h
          · rfl
        · simp only [agregar_pais, if_neg h1, if_neg (not_not_intro h2),
            if_neg h3] at h
          simp at h
      · simp [agregar_pais, if_neg h1, h2] at h
  · intro h
    by_cases h1 : strip n = ""
    · rw [agregar_pais] at h
      simp [h1] at h
    · by_cases h2 : buscar_pais st.catalogo (strip n) = []
      · by_cases h3 : (esDigito pobI && esDigito supI
            && !(strip contI).toList.isEmpty) = true
        · simp only [agregar_pais, if_neg h1, if_neg (not_not_intro h2),
            if_pos h3] at h ⊢
          cases saveOk
          · exact ⟨rfl, hag _ _⟩
          · simp at h
        · simp only [agregar_pais, if_neg h1, if_neg (not_not_intro h2),
            if_neg h3] at h
          simp at h
      · simp [agregar_pais, if_neg h1, h2] at h
  · intro h
    cases hb : buscar_pais st.catalogo n with
    | nil => simp [actualizar_pais, hb]
    | cons pais rest =>
      by_cases hdg : (esDigito pobI && esDigito supI) = true
      · exfalso
        revert h
        simp only [actualizar_pais, hb, if_pos hdg]
        cases saveOk <;> simp
      · simp only [actualizar_pais, hb, if_neg hdg]
  · intro p h
    cases hb : buscar_pais st.catalogo n with
    | nil => simp [actualizar_pais, hb] at h
    | cons pais rest =>
      by_cases hdg : (esDigito pobI && esDigito supI) = true
      · simp only [actualizar_pais, hb, if_pos hdg] at h ⊢
        cases saveOk
        · simp at h
        · rfl
      · simp only [actualizar_pais, hb, if_neg hdg] at h
        simp at h
  · intro p h
    cases hb : buscar_pais st.catalogo n with
    | nil => simp [actualizar_pais, hb] at h
    | cons pais rest =>
      by_cases hdg : (esDigito pobI && esDigito supI) = true
      · simp only [actualizar_pais, hb, if_pos hdg] at h ⊢
        cases saveOk
        · rfl
        · simp at h
      · simp only [actualizar_pais, hb, if_neg hdg] at h
        simp at h

/-- C4 witness: a rejected duplicate leaves the concrete state unchanged. -/
theorem mutaciones_atomicas_witness :
    (agregar_pais
        ⟨[⟨"Chile", 19, 756, "América"⟩], [⟨"Chile", 19, 756, "América"⟩]⟩
        "Chi" "1" "1" "América" true).1 =
      ⟨[⟨"Chile", 19, 756, "América"⟩], [⟨"Chile", 19, 756, "América"⟩]⟩ :=
  (mutaciones_atomicas
      ⟨[⟨"Chile", 19, 756, "América"⟩], [⟨"Chile", 19, 756, "América"⟩]⟩
      "Chi" "1" "1" "América" true).1 (Or.inr (Or.inl (by decide)))
